import Mathlib

/-!
Verification of the spiking-network numerical core of src/train.py.

Modelling conventions:
* Every torch float value occurring in this program is a finite IEEE double,
  hence an exact rational; the quantizer, the LIF membrane update, the
  quantized linear layer and the hex packer are therefore embedded over the
  rationals, which keeps them executable and decidable. The surrogate-gradient
  backward kernels use exp, sqrt and pi, so they are embedded over the reals.
* Tensors are flattened into lists; every tensor operation in the modelled
  code (round, clip, gt, arithmetic, the LIF step) acts elementwise, so a
  list with zipWith and map is a faithful shallow embedding.
* torch.round rounds to the nearest integer with ties to even; rndHalfEven
  below implements exactly that convention.
* The module-level configuration global surroguate_type of train.py is passed
  to the backward kernel as an explicit mode argument.
-/

/-- torch.round: nearest integer, ties to the even integer. -/
def rndHalfEven (q : ℚ) : ℤ :=
  if q - ⌊q⌋ < 1/2 then ⌊q⌋
  else if 1/2 < q - ⌊q⌋ then ⌊q⌋ + 1
  else if Even ⌊q⌋ then ⌊q⌋ else ⌊q⌋ + 1

/-- torch.clip x lo hi: clamp x into the interval from lo to hi. -/
def clip (x lo hi : ℚ) : ℚ := if x < lo then lo else if hi < x then hi else x

/-- Module-level constant lens = 0.5 of train.py (line 75). -/
noncomputable def lens : ℝ := 0.5

/-- Module-level constant thresh = 0.875 of train.py (line 76). -/
def thresh : ℚ := 0.875

/-- Module-level constant decay = 0.5 of train.py (line 77). -/
def decay : ℚ := 0.5

/-- Module-level constant gamma = 0.5 of train.py (line 78). -/
noncomputable def gamma : ℝ := 0.5

/-- gaussian of train.py (lines 81-82):
exp(-((x - mu)^2) / (2 sigma^2)) / sqrt(2 pi) / sigma. -/
noncomputable def gaussian (x mu sigma : ℝ) : ℝ :=
  Real.exp (-((x - mu) ^ 2) / (2 * sigma ^ 2)) / Real.sqrt (2 * Real.pi) / sigma

/-- F.relu on a scalar. -/
noncomputable def relu (x : ℝ) : ℝ := max x 0

/-- AcFun_adp.forward of train.py (lines 86-89) on one element:
input.gt(0).float() is 1.0 on strictly positive entries and 0.0 elsewhere. -/
def act_fun_adp (x : ℚ) : ℚ := if 0 < x then 1 else 0

/-- AcFun_adp.forward on a whole (flattened) tensor: elementwise. -/
def act_fun_adpT (x : List ℚ) : List ℚ := x.map act_fun_adp

/-- The kernel factor temp of AcFun_adp.backward (train.py lines 91-111),
selected by the configured surrogate mode, on one saved element. -/
noncomputable def AcFun_adp_backward_temp (mode : String) (input : ℝ) : ℝ :=
  let scale : ℝ := 6.0
  let height : ℝ := 0.15
  if mode = "G" then
    Real.exp (-(input ^ 2) / (2 * lens ^ 2)) / Real.sqrt (2 * Real.pi) / lens
  else if mode = "MG" then
    gaussian input 0 lens * (1.0 + height)
      - gaussian input lens (scale * lens) * height
      - gaussian input (-lens) (scale * lens) * height
  else if mode = "linear" then relu (1 - |input|)
  else if mode = "slayer" then Real.exp (-5 * |input|)
  else if mode = "sigmoid" then Real.exp (-input) / (1 + Real.exp (-input)) ^ 2
  else Real.exp (-|input|)

/-- AcFun_adp.backward of train.py (lines 91-112) on whole tensors:
returns grad_output * temp * gamma elementwise. -/
noncomputable def AcFun_adp_backward (mode : String) (grad_output input : List ℝ) :
    List ℝ :=
  List.zipWith (fun g x => g * AcFun_adp_backward_temp mode x * gamma) grad_output input

/-- LIF_mem_update of train.py (lines 118-128) on one element. -/
def LIF_mem_update_s (inputs mem spike : ℚ) : ℚ × ℚ :=
  let n : ℚ := 2 ^ 14
  let mem1 := mem * decay * (1 - spike)
  let mem2 := clip ((rndHalfEven (mem1 * n) : ℚ) / n) (-14.99993896484375) 14.99993896484375
  let mem3 := mem2 + inputs
  let mem4 := clip ((rndHalfEven (mem3 * n) : ℚ) / n) (-14.99993896484375) 14.99993896484375
  (mem4, act_fun_adp (mem4 - thresh))

/-- LIF_mem_update on whole (flattened) tensors: elementwise over the three
equally shaped arguments, returning the pair of updated membrane and spike. -/
def LIF_mem_update (inputs mem spike : List ℚ) : List ℚ × List ℚ :=
  let stepped := List.zipWith3 LIF_mem_update_s inputs mem spike
  (stepped.map Prod.fst, stepped.map Prod.snd)

/-- Quantize of train.py (lines 134-136):
clip(round(tensor * 2^(n_bit-2)) / 2^(n_bit-2), -1.99993896484375, 1.99993896484375). -/
def Quantize (tensor : ℚ) (n_bit : ℕ) : ℚ :=
  let n : ℚ := 2 ^ (n_bit - 2)
  clip ((rndHalfEven (tensor * n) : ℚ) / n) (-1.99993896484375) 1.99993896484375

/-- Binarize of train.py (lines 139-140): Quantize at 16 bits. -/
def Binarize (tensor : ℚ) : ℚ := Quantize tensor 16

/-- State of a BinarizeLinear layer: the live weight tensor, the lazily
created shadow (org) copies, and the optional live bias. A weight matrix is a
list of rows; the layer output for one input vector is row-wise dot products. -/
structure BinarizeLinearState where
  weight : List (List ℚ)
  weight_org : Option (List (List ℚ))
  bias : Option (List ℚ)
  bias_org : Option (List ℚ)

/-- Dot product of two equally long vectors. -/
def dot (u v : List ℚ) : ℚ := (List.zipWith (fun a b => a * b) u v).sum

/-- nn.functional.linear for one input vector: one output per weight row. -/
def linearMap (input : List ℚ) (w : List (List ℚ)) : List ℚ :=
  w.map (fun row => dot row input)

/-- BinarizeLinear.forward of train.py (lines 147-156) as a state transition:
lazily clone weight.org, overwrite weight.data with Binarize(weight.org),
compute the linear output, then (when a bias exists) lazily clone bias.org
and add the live bias to the output. -/
def BinarizeLinear_forward (s : BinarizeLinearState) (input : List ℚ) :
    BinarizeLinearState × List ℚ :=
  let worg := s.weight_org.getD s.weight
  let wdata := worg.map (List.map Binarize)
  let out := linearMap input wdata
  match s.bias with
  | none => (⟨wdata, some worg, none, s.bias_org⟩, out)
  | some b =>
      let borg := s.bias_org.getD b
      (⟨wdata, some worg, some b, some borg⟩, List.zipWith (fun a c => a + c) out b)

/-- Uppercase hex digit of a nibble value: hex(n)[2:].upper() for n < 16. -/
def hexChar (n : ℕ) : Char :=
  (['0', '1', '2', '3', '4', '5', '6', '7', '8', '9',
    'A', 'B', 'C', 'D', 'E', 'F']).getD n '0'

/-- int(binary_str, 2): value of a bit list read most significant bit first. -/
def bitsToNat (bits : List ℕ) : ℕ := bits.foldl (fun acc b => 2 * acc + b) 0

/-- view(-1, 4): split a list into consecutive groups of four (the input
always has length a multiple of four after padding). -/
def groups4 : List ℕ → List (List ℕ)
  | a :: b :: c :: d :: rest => [a, b, c, d] :: groups4 rest
  | _ => []

/-- Get_HexData of train.py (lines 159-179): flatten, right-pad with zeros to
a multiple of 4, group into nibbles, reverse the bit order inside each nibble
(torch.flip on the last dimension), turn each nibble into one uppercase hex
digit, and return the digit list in reversed order. -/
def Get_HexData (binary_tensor : List ℕ) : List String :=
  let flattened := binary_tensor
  let padded :=
    if flattened.length % 4 = 0 then flattened
    else flattened ++ List.replicate (4 - flattened.length % 4) 0
  let grouped := (groups4 padded).map List.reverse
  let hex_data := grouped.map (fun g => String.mk [hexChar (bitsToNat g)])
  hex_data.reverse

/-!
Spec-side definitions, written from the wording of the specification rather
than from the code, for the refinement comparisons below.
-/

/-- Density of the zero-mean Gaussian with scale sigma, as named by the
specification for the G surrogate kernel. -/
noncomputable def specGaussianDensity (sigma x : ℝ) : ℝ :=
  (1 / (sigma * Real.sqrt (2 * Real.pi))) * Real.exp (-(x ^ 2) / (2 * sigma ^ 2))

/-- The five surrogate kernel shapes exactly as the specification words them,
with lens spelled as the literal 0.5 and the MG weights spelled as literals. -/
noncomputable def specSurrogateKernel (mode : String) (x : ℝ) : ℝ :=
  if mode = "G" then specGaussianDensity 0.5 x
  else if mode = "MG" then
    gaussian x 0 0.5 * (1 + 0.15)
      - gaussian x 0.5 (6 * 0.5) * 0.15
      - gaussian x (-0.5) (6 * 0.5) * 0.15
  else if mode = "linear" then relu (1 - |x|)
  else if mode = "slayer" then Real.exp (-5 * |x|)
  else if mode = "sigmoid" then Real.exp (-x) / (1 + Real.exp (-x)) ^ 2
  else Real.exp (-|x|)

/-- The quantizer bound formula exactly as the specification words it:
L = 2^(n_bits-2) - 2^-(n_bits-2), depending on the bit width. -/
def QuantizeClaimFormula (value : ℚ) (n_bits : ℕ) : ℚ :=
  let n : ℚ := 2 ^ (n_bits - 2)
  let L : ℚ := 2 ^ (n_bits - 2) - ((2:ℚ) ^ (n_bits - 2))⁻¹
  clip ((rndHalfEven (value * n) : ℚ) / n) (-L) L

/-- The spec wording of the hex packer: right-pad with zero bits to a multiple
of four, group into nibbles, reverse the bit order inside each nibble, one
uppercase hex digit per nibble, and reverse the overall digit order. -/
def specHexPack (bits : List ℕ) : List String :=
  ((groups4 (bits ++ List.replicate ((4 - bits.length % 4) % 4) 0)).map
    (fun g => String.mk [hexChar (bitsToNat g.reverse)])).reverse

/-- A concrete one-input one-output layer with weight 0 and bias 3, shadow
copies not yet initialized. -/
def biasDemoLayer : BinarizeLinearState := ⟨[[0]], none, some [3], none⟩

/-- A concrete one-input one-output layer whose shadow copies are already
initialized. -/
def initializedDemoLayer : BinarizeLinearState := ⟨[[1]], some [[1]], some [2], some [2]⟩

/-!
General helper lemmas about lists and the rounding primitive.
-/

theorem zipWith3_length {α β γ δ : Type} (f : α → β → γ → δ) :
    ∀ (l1 : List α) (l2 : List β) (l3 : List γ),
      (List.zipWith3 f l1 l2 l3).length = min l1.length (min l2.length l3.length)
  | [], l2, l3 => by simp [List.zipWith3]
  | a :: t1, [], l3 => by simp [List.zipWith3]
  | a :: t1, b :: t2, [] => by simp [List.zipWith3]
  | a :: t1, b :: t2, c :: t3 => by
      simp [List.zipWith3, zipWith3_length f t1 t2 t3]
      omega

theorem zipWith3_getElem {α β γ δ : Type} (f : α → β → γ → δ) :
    ∀ (l1 : List α) (l2 : List β) (l3 : List γ) (i : ℕ)
      (h1 : i < l1.length) (h2 : i < l2.length) (h3 : i < l3.length)
      (h : i < (List.zipWith3 f l1 l2 l3).length),
      (List.zipWith3 f l1 l2 l3)[i] = f l1[i] l2[i] l3[i]
  | a :: t1, b :: t2, c :: t3, 0, _, _, _, _ => by simp [List.zipWith3]
  | a :: t1, b :: t2, c :: t3, i + 1, h1, h2, h3, h => by
      simp only [List.zipWith3, List.getElem_cons_succ]
      exact zipWith3_getElem f t1 t2 t3 i (by simpa using h1) (by simpa using h2)
        (by simpa using h3) (by simpa [List.zipWith3] using h)

theorem rndHalfEven_intCast (k : ℤ) : rndHalfEven (k : ℚ) = k := by
  unfold rndHalfEven
  rw [Int.floor_intCast]
  norm_num


theorem Quantize16_repr (q : ℚ) :
    ∃ k : ℤ, Quantize q 16 = (k : ℚ) / 2 ^ 14 ∧ -32767 ≤ k ∧ k ≤ 32767 := by
  simp only [Quantize, clip]
  split_ifs with h1 h2
  · refine ⟨-32767, by push_cast; norm_num, by norm_num, by norm_num⟩
  · refine ⟨32767, by push_cast; norm_num, by norm_num, by norm_num⟩
  · refine ⟨rndHalfEven (q * 2 ^ (16 - 2)), by norm_num, ?_, ?_⟩
    · have h1' := not_lt.mp h1
      rw [le_div_iff₀ (by norm_num : (0:ℚ) < 2 ^ (16 - 2))] at h1'
      norm_num at h1'
      exact_mod_cast h1'
    · have h2' := not_lt.mp h2
      rw [div_le_iff₀ (by norm_num : (0:ℚ) < 2 ^ (16 - 2))] at h2'
      norm_num at h2'
      exact_mod_cast h2'

/-- C4: 16-bit quantization is idempotent: for every rational x,
Quantize (Quantize x 16) 16 = Quantize x 16. -/
theorem Quantize16_idempotent (x : ℚ) :
    Quantize (Quantize x 16) 16 = Quantize x 16 := by
  obtain ⟨k, hk, hlo, hhi⟩ := Quantize16_repr x
  rw [hk]
  simp only [Quantize, clip]
  have hmul : ((k : ℚ) / 2 ^ 14) * 2 ^ (16 - 2 : ℕ) = (k : ℚ) := by
    norm_num
  rw [hmul, rndHalfEven_intCast]
  rw [if_neg, if_neg]
  · exact not_lt.mpr (by
      rw [div_le_iff₀ (by norm_num : (0:ℚ) < 2 ^ (16 - 2))]
      norm_num
      exact_mod_cast hhi)
  · exact not_lt.mpr (by
      rw [le_div_iff₀ (by norm_num : (0:ℚ) < 2 ^ (16 - 2))]
      norm_num
      exact_mod_cast hlo)

/-- C3 counterexample: at value 3 with n_bits = 16, the code clips to the
fixed literal bound 1.99993896484375, while the claimed bound formula
L = 2^(16-2) - 2^-(16-2) would leave the value 3 unclipped. -/
theorem Quantize_claim_formula_cex :
    Quantize 3 16 = 32767 / 16384
    ∧ QuantizeClaimFormula 3 16 = 3
    ∧ Quantize 3 16 ≠ QuantizeClaimFormula 3 16 := by
  have h1 : Quantize 3 16 = 32767 / 16384 := by
    simp only [Quantize, clip, rndHalfEven]
    norm_num
  have h2 : QuantizeClaimFormula 3 16 = 3 := by
    simp only [QuantizeClaimFormula, clip, rndHalfEven]
    norm_num
  refine ⟨h1, h2, ?_⟩
  rw [h1, h2]
  norm_num

/-- C3 amended: Quantize scales and rounds by 2^(n_bits-2) but clips with the
fixed bound 1.99993896484375 for every bit width; that bound equals
2 - 2^-(16-2), the 16-bit instantiation, and the result never exceeds it. -/
theorem Quantize_fixed_bound (value : ℚ) (n_bit : ℕ) :
    Quantize value n_bit
      = clip ((rndHalfEven (value * 2 ^ (n_bit - 2)) : ℚ) / 2 ^ (n_bit - 2))
          (-(2 - ((2:ℚ) ^ (16 - 2 : ℕ))⁻¹)) (2 - ((2:ℚ) ^ (16 - 2 : ℕ))⁻¹)
    ∧ (2 - ((2:ℚ) ^ (16 - 2 : ℕ))⁻¹) = 1.99993896484375
    ∧ |Quantize value n_bit| ≤ 1.99993896484375 := by
  have hb : (2 - ((2:ℚ) ^ (16 - 2 : ℕ))⁻¹) = 1.99993896484375 := by norm_num
  refine ⟨by rw [hb]; rfl, hb, ?_⟩
  simp only [Quantize, clip]
  split_ifs with h1 h2
  · rw [abs_le]; norm_num
  · rw [abs_le]; norm_num
  · rw [abs_le]
    exact ⟨not_lt.mp h1, not_lt.mp h2⟩

theorem surrogate_kernel_eq (mode : String) (x : ℝ) :
    AcFun_adp_backward_temp mode x = specSurrogateKernel mode x := by
  have hs : Real.sqrt (2 * Real.pi) ≠ 0 :=
    ne_of_gt (Real.sqrt_pos.mpr (by positivity))
  simp only [AcFun_adp_backward_temp, specSurrogateKernel, lens]
  split_ifs with hG hMG
  · simp only [specGaussianDensity]
    field_simp
    ring
  · norm_num
  all_goals rfl

/-- C1: the surrogate backward pass returns g * kernel(x) * gamma elementwise
with gamma = 0.5, where kernel is, by mode: G the zero-mean Gaussian density
of scale 0.5, MG the weighted three-Gaussian sum, linear relu(1 - abs x),
slayer exp(-5 abs x), sigmoid exp(-x)/(1+exp(-x))^2, and exp(-abs x) for any
other mode. -/
theorem AcFun_backward_matches_spec (mode : String) (grad_output input : List ℝ) :
    AcFun_adp_backward mode grad_output input
      = List.zipWith (fun g x => g * specSurrogateKernel mode x * 0.5) grad_output input := by
  have hg : gamma = 0.5 := rfl
  simp only [AcFun_adp_backward, surrogate_kernel_eq, hg]

/-- C7: the estimator forward pass returns, elementwise, exactly 1.0 where the
input is strictly positive and 0.0 otherwise; every output element is 1.0 or
0.0, and an element exactly equal to 0 yields 0.0. -/
theorem act_fun_forward_binary (x : List ℚ) :
    (∀ i, i < x.length →
      (act_fun_adpT x).getD i 0 = if 0 < x.getD i 0 then 1 else 0)
    ∧ (∀ y ∈ act_fun_adpT x, y = 1 ∨ y = 0)
    ∧ (∀ i, i < x.length → x.getD i 0 = 0 → (act_fun_adpT x).getD i 0 = 0) := by
  have hlen : (act_fun_adpT x).length = x.length := by simp [act_fun_adpT]
  have hp : ∀ i, i < x.length →
      (act_fun_adpT x).getD i 0 = if 0 < x.getD i 0 then 1 else 0 := by
    intro i hi
    rw [List.getD_eq_getElem _ _ (by rw [hlen]; exact hi),
        List.getD_eq_getElem _ _ hi]
    simp [act_fun_adpT, act_fun_adp]
  refine ⟨hp, ?_, ?_⟩
  · intro y hy
    simp only [act_fun_adpT, List.mem_map] at hy
    obtain ⟨v, -, rfl⟩ := hy
    unfold act_fun_adp
    split_ifs <;> simp
  · intro i hi h0
    rw [hp i hi, h0]
    norm_num

theorem act_fun_forward_binary_witness :
    (act_fun_adpT [(1:ℚ), 0, -2]).getD 0 0 = 1
    ∧ (act_fun_adpT [(1:ℚ), 0, -2]).getD 1 0 = 0 := by
  have h := act_fun_forward_binary [(1:ℚ), 0, -2]
  constructor
  · have h0 := h.1 0 (by norm_num)
    norm_num at h0
    exact h0
  · exact h.2.2 1 (by norm_num) (by norm_num)

/-- C2: one LIF update on equally shaped tensors computes, elementwise,
mem1 = mem * 0.5 * (1 - spike), mem2 = clip(round(mem1 * 2^14)/2^14, bound),
mem3 = mem2 + inputs, the new membrane clip(round(mem3 * 2^14)/2^14, bound)
with bound 14.99993896484375, and the new spike 1.0 where the new membrane
minus 0.875 is positive, 0.0 otherwise; both results keep the input shape. -/
theorem LIF_step_formula (inputs mem spike : List ℚ)
    (hm : mem.length = inputs.length) (hs : spike.length = inputs.length) :
    (LIF_mem_update inputs mem spike).1.length = inputs.length
    ∧ (LIF_mem_update inputs mem spike).2.length = inputs.length
    ∧ ∀ i, i < inputs.length →
        (LIF_mem_update inputs mem spike).1.getD i 0 =
          clip ((rndHalfEven ((clip
                  ((rndHalfEven (mem.getD i 0 * 0.5 * (1 - spike.getD i 0) * 2 ^ 14) : ℚ) / 2 ^ 14)
                  (-14.99993896484375) 14.99993896484375
                + inputs.getD i 0) * 2 ^ 14) : ℚ) / 2 ^ 14)
            (-14.99993896484375) 14.99993896484375
        ∧ (LIF_mem_update inputs mem spike).2.getD i 0 =
            (if 0 < (LIF_mem_update inputs mem spike).1.getD i 0 - 0.875 then 1 else 0) := by
  have hlen : (List.zipWith3 LIF_mem_update_s inputs mem spike).length = inputs.length := by
    rw [zipWith3_length]
    omega
  have h1 : (LIF_mem_update inputs mem spike).1.length = inputs.length := by
    simp [LIF_mem_update, hlen]
  have h2 : (LIF_mem_update inputs mem spike).2.length = inputs.length := by
    simp [LIF_mem_update, hlen]
  refine ⟨h1, h2, ?_⟩
  intro i hi
  have hmem : i < mem.length := by omega
  have hspk : i < spike.length := by omega
  have hiz : i < (List.zipWith3 LIF_mem_update_s inputs mem spike).length := by
    rw [hlen]
    exact hi
  have e1 : (LIF_mem_update inputs mem spike).1.getD i 0
      = (LIF_mem_update_s inputs[i] mem[i] spike[i]).1 := by
    rw [List.getD_eq_getElem _ _ (by rw [h1]; exact hi)]
    simp only [LIF_mem_update, List.getElem_map,
      zipWith3_getElem LIF_mem_update_s inputs mem spike i hi hmem hspk hiz]
  have e2 : (LIF_mem_update inputs mem spike).2.getD i 0
      = (LIF_mem_update_s inputs[i] mem[i] spike[i]).2 := by
    rw [List.getD_eq_getElem _ _ (by rw [h2]; exact hi)]
    simp only [LIF_mem_update, List.getElem_map,
      zipWith3_getElem LIF_mem_update_s inputs mem spike i hi hmem hspk hiz]
  rw [List.getD_eq_getElem inputs 0 hi, List.getD_eq_getElem mem 0 hmem,
    List.getD_eq_getElem spike 0 hspk]
  constructor
  · rw [e1]
    simp only [LIF_mem_update_s, decay]
  · rw [e2, e1]
    simp only [LIF_mem_update_s, act_fun_adp, thresh]

theorem LIF_step_formula_witness :
    (LIF_mem_update [1] [2] [0]).1.getD 0 0 = 2
    ∧ (LIF_mem_update [1] [2] [0]).2.getD 0 0 = 1 := by
  have h := (LIF_step_formula [1] [2] [0] rfl rfl).2.2 0 (by norm_num)
  have hm : (LIF_mem_update [1] [2] [0]).1.getD 0 0 = 2 := by
    rw [h.1]
    norm_num [clip, rndHalfEven]
  refine ⟨hm, ?_⟩
  rw [h.2, hm]
  norm_num

theorem LIF_zero_state (v : ℚ) :
    LIF_mem_update_s v 0 0
      = (clip ((rndHalfEven (v * 2 ^ 14) : ℚ) / 2 ^ 14)
            (-14.99993896484375) 14.99993896484375,
         if 0.875 < clip ((rndHalfEven (v * 2 ^ 14) : ℚ) / 2 ^ 14)
              (-14.99993896484375) 14.99993896484375
         then 1 else 0) := by
  simp only [LIF_mem_update_s, act_fun_adp, thresh, decay, sub_pos]
  rw [show (0:ℚ) * 0.5 * (1 - 0) * 2 ^ 14 = ((0:ℤ):ℚ) by norm_num, rndHalfEven_intCast]
  norm_num [clip]

/-- C10: the input-encoding LIF pass runs on the whole tensor with membrane
and spike initialized to zero, so it is a pure elementwise map: each encoded
spike is 1.0 exactly where clip(round(x * 2^14)/2^14, bound) exceeds 0.875,
with no dependence on any other element and hence no temporal accumulation
across timesteps. -/
theorem encoding_is_single_step (x : List ℚ) :
    (LIF_mem_update x (List.replicate x.length 0) (List.replicate x.length 0)).2
      = x.map (fun v =>
          if 0.875 < clip ((rndHalfEven (v * 2 ^ 14) : ℚ) / 2 ^ 14)
              (-14.99993896484375) 14.99993896484375
          then 1 else 0) := by
  induction x with
  | nil => rfl
  | cons v t ih =>
      simp only [LIF_mem_update, List.length_cons, List.replicate_succ, List.zipWith3,
        List.map_cons] at ih ⊢
      rw [LIF_zero_state]
      exact List.cons_eq_cons.mpr ⟨rfl, ih⟩

/-- C5 counterexample: on a layer with weight 0 and bias 3, the forward output
is the live bias value 3, while quantize(shadow_bias, 16) would be
1.99993896484375; the code adds the live bias, not the quantized shadow. -/
theorem bias_not_quantized_cex :
    (BinarizeLinear_forward biasDemoLayer [0]).2 = [3]
    ∧ Binarize 3 = 32767 / 16384
    ∧ (3:ℚ) ≠ Binarize 3 := by
  have hb : Binarize 3 = 32767 / 16384 := by
    simp only [Binarize, Quantize, clip, rndHalfEven]
    norm_num
  refine ⟨?_, hb, by rw [hb]; norm_num⟩
  simp only [biasDemoLayer, BinarizeLinear_forward, linearMap, dot, Option.getD,
    List.map_cons, List.map_nil, List.zipWith_cons_cons, List.zipWith_nil_right]
  norm_num [Binarize, Quantize, clip, rndHalfEven]

/-- C5 amended: when a bias is present, a full-precision shadow bias is
lazily initialized on the forward call, but the output adds the live bias
value itself, without quantization, to the quantized-weight product. -/
theorem bias_shadow_lazy_live_add (s : BinarizeLinearState) (input b : List ℚ)
    (hb : s.bias = some b) :
    (BinarizeLinear_forward s input).2
      = List.zipWith (fun a c => a + c)
          (linearMap input ((s.weight_org.getD s.weight).map (List.map Binarize))) b
    ∧ (BinarizeLinear_forward s input).1.bias_org = some (s.bias_org.getD b)
    ∧ (BinarizeLinear_forward s input).1.bias = some b := by
  simp [BinarizeLinear_forward, hb]

theorem bias_shadow_lazy_live_add_witness :
    (BinarizeLinear_forward biasDemoLayer [0]).1.bias_org = some [3] := by
  have h := (bias_shadow_lazy_live_add biasDemoLayer [0] [3] rfl).2.1
  simpa using h

/-- C6 counterexample: for the unrecognized mode bogus the backward pass does
not fail; it silently produces the gradient 1 * exp(-abs 0) * 0.5 = 0.5. -/
theorem unknown_mode_no_error_cex :
    ("bogus" ∉ (["G", "MG", "linear", "slayer", "sigmoid"] : List String))
    ∧ AcFun_adp_backward "bogus" [1] [0] = [0.5] := by
  refine ⟨by decide, ?_⟩
  have ht : AcFun_adp_backward_temp "bogus" 0 = 1 := by
    simp only [AcFun_adp_backward_temp]
    rw [if_neg (by decide), if_neg (by decide), if_neg (by decide),
      if_neg (by decide), if_neg (by decide)]
    simp
  have hg : gamma = 0.5 := rfl
  simp only [AcFun_adp_backward, List.zipWith_cons_cons, List.zipWith_nil_right, ht, hg]
  norm_num

/-- C6 amended: an unrecognized surrogate mode does not raise any error; the
backward pass silently falls back to the default kernel exp(-abs x), still
returning g * kernel(x) * 0.5 elementwise. -/
theorem unknown_mode_silent_fallback (mode : String)
    (h : mode ∉ (["G", "MG", "linear", "slayer", "sigmoid"] : List String))
    (grad_output input : List ℝ) :
    AcFun_adp_backward mode grad_output input
      = List.zipWith (fun g x => g * Real.exp (-|x|) * 0.5) grad_output input := by
  simp only [List.mem_cons, List.not_mem_nil, or_false, not_or] at h
  obtain ⟨h1, h2, h3, h4, h5⟩ := h
  have ht : ∀ x : ℝ, AcFun_adp_backward_temp mode x = Real.exp (-|x|) := by
    intro x
    simp only [AcFun_adp_backward_temp]
    rw [if_neg h1, if_neg h2, if_neg h3, if_neg h4, if_neg h5]
  have hg : gamma = 0.5 := rfl
  simp only [AcFun_adp_backward, ht, hg]

theorem unknown_mode_silent_fallback_witness :
    AcFun_adp_backward "bogus" [1] [0]
      = List.zipWith (fun g x => g * Real.exp (-|x|) * 0.5) [1] [0] :=
  unknown_mode_silent_fallback "bogus" (by decide) [1] [0]

/-- C8: a second forward call with the same input and no optimizer step in
between returns the same output, and neither call changes the shadow copies
once they are initialized. -/
theorem forward_twice_same_output (s : BinarizeLinearState) (input : List ℚ) :
    (BinarizeLinear_forward (BinarizeLinear_forward s input).1 input).2
        = (BinarizeLinear_forward s input).2
    ∧ (BinarizeLinear_forward (BinarizeLinear_forward s input).1 input).1.weight_org
        = (BinarizeLinear_forward s input).1.weight_org
    ∧ (BinarizeLinear_forward (BinarizeLinear_forward s input).1 input).1.bias_org
        = (BinarizeLinear_forward s input).1.bias_org
    ∧ (∀ w0, s.weight_org = some w0 →
        (BinarizeLinear_forward s input).1.weight_org = some w0)
    ∧ (∀ b b0, s.bias = some b → s.bias_org = some b0 →
        (BinarizeLinear_forward s input).1.bias_org = some b0) := by
  refine ⟨?_, ?_, ?_, ?_, ?_⟩
  · cases hsb : s.bias <;> simp [BinarizeLinear_forward, hsb]
  · cases hsb : s.bias <;> simp [BinarizeLinear_forward, hsb]
  · cases hsb : s.bias <;> simp [BinarizeLinear_forward, hsb]
  · intro w0 hw
    cases hsb : s.bias <;> simp [BinarizeLinear_forward, hsb, hw]
  · intro b b0 hb hb0
    simp [BinarizeLinear_forward, hb, hb0]

theorem forward_twice_same_output_witness :
    (BinarizeLinear_forward initializedDemoLayer [1]).1.weight_org = some [[1]]
    ∧ (BinarizeLinear_forward initializedDemoLayer [1]).1.bias_org = some [2] :=
  ⟨(forward_twice_same_output initializedDemoLayer [1]).2.2.2.1 [[1]] rfl,
    (forward_twice_same_output initializedDemoLayer [1]).2.2.2.2 [2] [2] rfl rfl⟩

/-- C9: the hex packer right-pads to a multiple of four bits, reverses the
bit order inside each nibble, emits one uppercase hex digit per nibble and
reverses the digit order; on the literal input [1,0,1,0,1,1,0,0] it returns
exactly the two single-character digits 3 and 5. -/
theorem hex_pack_spec :
    (∀ bits : List ℕ, Get_HexData bits = specHexPack bits)
    ∧ Get_HexData [1, 0, 1, 0, 1, 1, 0, 0] = ["3", "5"]
    ∧ (Get_HexData [1, 0, 1, 0, 1, 1, 0, 0]).map String.length = [1, 1] := by
  refine ⟨?_, by decide, by decide⟩
  intro bits
  simp only [Get_HexData, specHexPack, List.map_map]
  have hpad : (if bits.length % 4 = 0 then bits
      else bits ++ List.replicate (4 - bits.length % 4) 0)
      = bits ++ List.replicate ((4 - bits.length % 4) % 4) 0 := by
    by_cases h : bits.length % 4 = 0
    · simp [h]
    · have hlt : bits.length % 4 < 4 := Nat.mod_lt _ (by norm_num)
      have heq : (4 - bits.length % 4) % 4 = 4 - bits.length % 4 := by omega
      simp [h, heq]
  rw [hpad]
  rfl
